import Mathlib

/-!
# Verification of the nana-handbook pi calculator

Shallow embedding of `pi calculator.cpp`: the `nine_digits_of_Pi`
digit-extraction engine (Bellard/Plouffe series) and the `calc_pi`
block-assembling driver.

Modelling conventions:
* C++ `int`/`long`/`std::size_t` values that stay non-negative are `Nat`;
  the one variable that can go negative (`v`, and the intermediate
  coefficients of the extended Euclid loop) are `Int`.  None of the
  arithmetic in the source overflows for the inputs considered, so the
  embedding uses unbounded integers (the source itself widens to `long`
  before the only multiplication that could overflow, in `mul_mod`).
* The `double` accumulator `sum` (kept in `[0,1)` by `std::fmod(·, 1.0)`)
  is modelled by an exact rational, represented as a numerator/denominator
  pair of naturals; `fmod(x, 1.0)` becomes a numerator reduction mod the
  denominator, and the final `(int)(sum * 1e9)` becomes
  `sumN * 10^9 / sumD`.
* The floored logarithms `(int)((n+20)*log(10)/log(2))` and
  `(int)(log(2N)/log(a))` are modelled by the exact integer logarithm
  `ilog` (largest `e` with `b^(e+1) ≤ m` gives `e`), their mathematical
  values; `(int)std::sqrt(n)` is modelled by the exact integer square
  root `isqrt`.
* Every C++ loop is embedded as a fuel-indexed structural recursion; the
  fuel arguments chosen at the call sites are provably sufficient, so the
  embedded functions compute exactly what the loops compute.
* `std::string` is modelled as `List Char`; `std::to_string` for a
  non-negative int as `to_string` below; `substr(0, count)` as
  `List.take count`.
* The driver's progress callback is a function `Nat → Bool`; a run is
  embedded as the pair (result string, list of values passed to the
  callback), so that cancellation and progress-reporting claims can be
  stated.  The `ok` field of the loop states records that `inv_mod` was
  never entered with a zero first argument (`u = 0` at the division
  `q = v / u`), i.e. that no division by zero occurs.
-/

namespace nine_digits_of_Pi

/-- `mul_mod`: `(int)((a * b) % m)` with the product widened to `long`.
For the non-negative values the program uses this is exact natural
arithmetic. -/
def mul_mod (a b m : Nat) : Nat := (a * b) % m

/-- The do/while loop of `inv_mod`, fuel-indexed.  State: `u v` (the
remainder pair, non-negative throughout) and `a c` (the coefficient pair,
which may go negative).  One iteration: `q = v / u`, then
`(a, c) ← (c, a - q*c)` and `(u, v) ← (v - q*u, u)`; the loop exits when
the new `u` is zero, returning the new `a`. -/
def inv_mod.go : Nat → Nat → Nat → Int → Int → Int
  | 0, _, _, a, _ => a
  | fuel+1, u, v, a, c =>
    let q := v / u
    let c' := a - (q : Int) * c
    let a' := c
    let u' := v - q * u
    let v' := u
    if u' = 0 then a' else inv_mod.go fuel u' v' a' c'

/-- `inv_mod x y`: extended Euclid, returning the inverse of `x` mod `y`.
After the loop the source computes `a = a % y; if (a < 0) a = y + a;`
(C++ `%` is the truncated remainder, `Int.tmod`). -/
def inv_mod (x y : Nat) : Nat :=
  let a := inv_mod.go (x+1) x y 0 1
  let a := a.tmod (y : Int)
  (if a < 0 then (y : Int) + a else a).toNat

/-- The `while (true)` loop of `pow_mod`, fuel-indexed.  One iteration:
if the low bit of `b` is set, `r ← mul_mod r aa m`; then `b ← b >> 1`;
exit with `r` if `b = 0`, else `aa ← mul_mod aa aa m` and repeat. -/
def pow_mod.go (m : Nat) : Nat → Nat → Nat → Nat → Nat
  | 0, r, _, _ => r
  | fuel+1, r, aa, b =>
    let r' := if b % 2 = 1 then mul_mod r aa m else r
    let b' := b / 2
    if b' = 0 then r' else pow_mod.go m fuel r' (mul_mod aa aa m) b'

/-- `pow_mod a b m`: `(a ^ b) mod m` by right-to-left binary
exponentiation.  The loop halves `b` each iteration, so fuel `b + 1` is
always sufficient. -/
def pow_mod (a b m : Nat) : Nat := pow_mod.go m (b+1) 1 a b

/-- Ascending integer square root loop: models `(int)std::sqrt(n)`
exactly (`std::sqrt` is correctly rounded and `n` is far below 2^52). -/
def isqrt.go (n : Nat) : Nat → Nat → Nat
  | 0, s => s
  | fuel+1, s => if (s+1)*(s+1) ≤ n then isqrt.go n fuel (s+1) else s

/-- `isqrt n = ⌊√n⌋`, the value of `(int)std::sqrt(n)`. -/
def isqrt (n : Nat) : Nat := isqrt.go n n 0

/-- The trial-division loop of `not_prime`: odd candidates `i = 3, 5, …`
while `i ≤ r`; reports `true` (composite) on the first divisor found. -/
def not_prime.go (n r : Nat) : Nat → Nat → Bool
  | 0, _ => false
  | fuel+1, i =>
    if i ≤ r then (if n % i = 0 then true else not_prime.go n r fuel (i+2))
    else false

/-- `not_prime n`: `true` if `n` is even, otherwise trial division by odd
`i ≤ (int)sqrt(n)`. -/
def not_prime (n : Nat) : Bool :=
  if n % 2 = 0 then true else not_prime.go n (isqrt n) n 3

/-- The `while (not_prime(++n));` loop, fuel-indexed.  Fuel `n + 2` is
sufficient by Bertrand's postulate (there is a prime in `(n, 2n)`). -/
def next_prime.go : Nat → Nat → Nat
  | 0, n => n+1
  | fuel+1, n => if not_prime (n+1) then next_prime.go fuel (n+1) else n+1

/-- `next_prime n`: the first `m > n` with `not_prime m = false`. -/
def next_prime (n : Nat) : Nat := next_prime.go (n+2) n

/-- Ascending integer logarithm loop: increase `e` while
`b^(e+1) ≤ m`. -/
def ilog.go (b m : Nat) : Nat → Nat → Nat
  | 0, e => e
  | fuel+1, e => if b^(e+1) ≤ m then ilog.go b m fuel (e+1) else e

/-- `ilog b m fuel`: with sufficient fuel, the largest `e` with
`b^e ≤ m` (and `0` when `b ≤ m` fails at `e = 1`).  This is the exact
value of the floored logarithm quotients in the source. -/
def ilog (b m fuel : Nat) : Nat := ilog.go b m fuel 0

/-- State of the inner `k`-loop of `at`: partial sum `s`, accumulators
`num` and `den` (mod `av`), valuation balance `v` (a C++ `int`, may be
negative), and the "next multiple of `a`" counters `kq` (for `k`) and
`kq2` (for `2k-1`).  `ok` additionally records that every `inv_mod`
call so far had a non-zero first argument. -/
structure LoopState where
  s   : Nat
  num : Nat
  den : Nat
  v   : Int
  kq  : Nat
  kq2 : Nat
  ok  : Bool

/-- The `do { t = t / a; --v; } while (t % a == 0);` loop stripping
factors of `a` out of `t` while decrementing `v`; fuel-indexed. -/
def strip_down (a : Nat) : Nat → Nat → Int → Nat × Int
  | 0, t, v => (t, v)
  | fuel+1, t, v =>
    let t' := t / a
    let v' := v - 1
    if t' % a = 0 then strip_down a fuel t' v' else (t', v')

/-- The `do { t = t / a; ++v; } while (t % a == 0);` loop stripping
factors of `a` out of `t` while incrementing `v`; fuel-indexed. -/
def strip_up (a : Nat) : Nat → Nat → Int → Nat × Int
  | 0, t, v => (t, v)
  | fuel+1, t, v =>
    let t' := t / a
    let v' := v + 1
    if t' % a = 0 then strip_up a fuel t' v' else (t', v')

/-- The `for (int i = v; i < vmax; ++i) t = mul_mod(t, a, av);` loop:
multiply by `a` mod `av`, `c` times. -/
def mul_pow (a av : Nat) : Nat → Nat → Nat
  | 0, t => t
  | c+1, t => mul_pow a av c (mul_mod t a av)

/-- One iteration of the inner `k`-loop of `at` (the body of
`for (int k = 1; k <= N; ++k)`). -/
def at_body (a av vmax : Nat) (k : Nat) (st : LoopState) : LoopState :=
  let tvkq :=
    if a ≤ st.kq then
      let tv := strip_down a k k st.v
      (tv.1, tv.2, 0)
    else (k, st.v, st.kq)
  let t := tvkq.1
  let v := tvkq.2.1
  let kq := tvkq.2.2 + 1
  let num := mul_mod st.num t av
  let tvkq2 :=
    if a ≤ st.kq2 then
      if st.kq2 = a then
        let tv := strip_up a (2*k-1) (2*k-1) v
        (tv.1, tv.2, st.kq2 - a)
      else (2*k-1, v, st.kq2 - a)
    else (2*k-1, v, st.kq2)
  let t2 := tvkq2.1
  let v2 := tvkq2.2.1
  let den := mul_mod st.den t2 av
  let kq2 := tvkq2.2.2 + 2
  if 0 < v2 then
    let ok := st.ok && (den != 0)
    let t3 := inv_mod den av
    let t4 := mul_mod t3 num av
    let t5 := mul_mod t4 k av
    let t6 := mul_pow a av (vmax - v2.toNat) t5
    let s := st.s + t6
    let s' := if av ≤ s then s - av else s
    ⟨s', num, den, v2, kq, kq2, ok⟩
  else ⟨st.s, num, den, v2, kq, kq2, st.ok⟩

/-- The inner `k`-loop of `at`: `rem` remaining iterations starting at
index `k`. -/
def at_inner (a av vmax : Nat) : Nat → Nat → LoopState → LoopState
  | 0, _, st => st
  | rem+1, k, st => at_inner a av vmax rem (k+1) (at_body a av vmax k st)

/-- Global state of `at`: the accumulator `sum` as the exact rational
`sumN / sumD ∈ [0,1)`, plus the division-safety flag `ok`. -/
structure AtState where
  sumN : Nat
  sumD : Nat
  ok : Bool

/-- The outer prime loop of `at` (`for (int a = 3; a <= 2*N; a = next_prime(a))`).
Per prime: `vmax = (int)(log(2N)/log(a))` (exactly `ilog a (2*N)`),
`av = a^vmax` (the source multiplies `a` together `vmax` times), run the
inner loop, then `t = pow_mod(10, n-1, av)` and
`sum = fmod(sum + mul_mod(s, t, av)/(double)av, 1.0)`, here in exact
rational arithmetic on the pair `(sumN, sumD)`. -/
def at_outer (n N : Nat) : Nat → Nat → AtState → AtState
  | 0, _, st => st
  | fuel+1, a, st =>
    if a ≤ 2*N then
      let vmax := ilog a (2*N) (2*N)
      let av := a^vmax
      let inner := at_inner a av vmax N 1 ⟨0, 1, 1, 0, 1, 1, st.ok⟩
      let t := pow_mod 10 (n-1) av
      let c := mul_mod inner.s t av
      at_outer n N fuel (next_prime a)
        ⟨(st.sumN * av + c * st.sumD) % (st.sumD * av), st.sumD * av, inner.ok⟩
    else st

/-- `at` up to the final truncation: `N = (int)((n+20)*log(10)/log(2))`
(exactly `ilog 2 (10^(n+20))`), then the outer prime loop from `a = 3`.
The outer fuel `2*N+2` is sufficient since `a` strictly increases and
the loop exits once `a > 2*N`. -/
def at_run (n : Nat) : AtState :=
  let N := ilog 2 (10^(n+20)) (4*(n+20)+4)
  at_outer n N (2*N+2) 3 ⟨0, 1, true⟩

/-- `at n`: the nine decimal digits of π starting at 1-based decimal
position `n`, i.e. `(int)(sum * 1e9)` = `⌊sumN/sumD * 10^9⌋`.
(`at` is a Lean keyword, hence the primed name.) -/
def at' (n : Nat) : Nat := (at_run n).sumN * 10^9 / (at_run n).sumD

end nine_digits_of_Pi

open nine_digits_of_Pi in
/-- Model of `std::to_string` for a non-negative int: most significant
decimal digit first, fuel-indexed on the number of digits (fuel `n+1`
always suffices since `n / 10 < n` for `n ≥ 10`). -/
def to_string.go : Nat → Nat → List Char → List Char
  | 0, _, acc => acc
  | fuel+1, n, acc =>
    if n < 10 then Nat.digitChar n :: acc
    else to_string.go fuel (n / 10) (Nat.digitChar (n % 10) :: acc)

/-- `std::to_string(n)` as a list of characters. -/
def to_string (n : Nat) : List Char := to_string.go (n+1) n []

/-- The block loop of the ASYNC `calc_pi` (`for (i = 0; i < digits; i += 9)`),
fuel-indexed, additionally recording the list of values passed to the
progress callback.  Per block: `nine_digits = at(i+1)`,
`count = min(digits - i, 9)`, append `to_string(nine_digits).substr(0, count)`,
then invoke `progress(i + count)`; if it returns `false`, return the
empty string (discarding `pi`). -/
def calc_pi.go (digits : Nat) (progress : Nat → Bool) :
    Nat → Nat → List Char → List Nat → List Char × List Nat
  | 0, _, pi, calls => (pi, calls)
  | fuel+1, i, pi, calls =>
    if i < digits then
      let nine_digits := nine_digits_of_Pi.at' (i+1)
      let count := min (digits - i) 9
      let pi' := pi ++ (to_string nine_digits).take count
      let calls' := calls ++ [i + count]
      if progress (i + count) then calc_pi.go digits progress fuel (i+9) pi' calls'
      else ([], calls')
    else (pi, calls)

/-- A full run of the ASYNC `calc_pi`: result string and the sequence of
progress-callback arguments.  The loop advances `i` by 9 each iteration,
so fuel `digits + 1` is always sufficient. -/
def calc_pi_run (digits : Nat) (progress : Nat → Bool) : List Char × List Nat :=
  calc_pi.go digits progress (digits+1) 0 ['3', '.'] []

/-- The string returned by the ASYNC `calc_pi`. -/
def calc_pi (digits : Nat) (progress : Nat → Bool) : List Char :=
  (calc_pi_run digits progress).1

/-- The sequence of values passed to the progress callback by `calc_pi`. -/
def calc_pi_calls (digits : Nat) (progress : Nat → Bool) : List Nat :=
  (calc_pi_run digits progress).2

/-- The block loop of the non-ASYNC `calc_pi`: identical except that the
return value of `progress` is ignored (the callback returns no useful
value there); the invocation is still recorded. -/
def calc_pi_sync.go (digits : Nat) (progress : Nat → Bool) :
    Nat → Nat → List Char → List Nat → List Char × List Nat
  | 0, _, pi, calls => (pi, calls)
  | fuel+1, i, pi, calls =>
    if i < digits then
      let nine_digits := nine_digits_of_Pi.at' (i+1)
      let count := min (digits - i) 9
      let pi' := pi ++ (to_string nine_digits).take count
      let calls' := calls ++ [i + count]
      calc_pi_sync.go digits progress fuel (i+9) pi' calls'
    else (pi, calls)

/-- A full run of the non-ASYNC `calc_pi`. -/
def calc_pi_sync_run (digits : Nat) (progress : Nat → Bool) : List Char × List Nat :=
  calc_pi_sync.go digits progress (digits+1) 0 ['3', '.'] []

/-- The string returned by the non-ASYNC `calc_pi`. -/
def calc_pi_sync (digits : Nat) (progress : Nat → Bool) : List Char :=
  (calc_pi_sync_run digits progress).1

/-! ## Helper lemmas about the extended Euclid loop (`inv_mod`) -/

namespace nine_digits_of_Pi

theorem sub_div_mul_eq_mod (v u : Nat) : v - v / u * u = v % u := by
  have := Nat.mod_add_div' v u
  omega

theorem Int.neg_tmod' (a b : Int) : (-a).tmod b = -(a.tmod b) := by
  rw [Int.tmod_def, Int.tmod_def, Int.neg_tdiv]
  ring

theorem Int.neg_lt_tmod (a : Int) {b : Int} (hb : 0 < b) : -b < a.tmod b := by
  rcases le_or_lt 0 a with ha | ha
  · have := Int.tmod_nonneg b ha
    omega
  · have h1 : (-a).tmod b < b := Int.tmod_lt_of_pos (-a) hb
    have h2 : (-a).tmod b = -(a.tmod b) := Int.neg_tmod' a b
    omega

theorem Int.tmod_modEq (a b : Int) : a.tmod b ≡ a [ZMOD b] := by
  have h := Int.tmod_add_tdiv a b
  have : a - a.tmod b = b * a.tdiv b := by omega
  exact (Int.modEq_iff_dvd.mpr ⟨a.tdiv b, this⟩)

/-- Invariant of the extended-Euclid loop: if `c*x ≡ u` and `a*x ≡ v`
(mod `y`) and `gcd u v = gcd x y`, then the loop result times `x` is
congruent to `gcd x y` mod `y`.  Fuel `u` suffices because the first
state component strictly decreases. -/
theorem inv_mod_go_spec (x y : Nat) :
    ∀ (fuel u v : Nat) (a c : Int), 0 < u → u ≤ fuel →
    c * (x : Int) ≡ (u : Int) [ZMOD (y : Int)] →
    a * (x : Int) ≡ (v : Int) [ZMOD (y : Int)] →
    Nat.gcd u v = Nat.gcd x y →
    inv_mod.go fuel u v a c * (x : Int) ≡ (Nat.gcd x y : Int) [ZMOD (y : Int)] := by
  intro fuel
  induction fuel with
  | zero => intro u v a c hu hle _ _ _; omega
  | succ fuel ih =>
    intro u v a c hu hle hc ha hg
    simp only [inv_mod.go]
    rw [sub_div_mul_eq_mod]
    by_cases h0 : v % u = 0
    · simp only [h0, if_pos rfl]
      have hdvd : u ∣ v := Nat.dvd_of_mod_eq_zero h0
      have : Nat.gcd u v = u := Nat.gcd_eq_left hdvd
      rw [← hg, this]
      exact hc
    · rw [if_neg h0]
      apply ih
      · omega
      · have := Nat.mod_lt v hu
        omega
      · -- (a - q*c) * x ≡ v - q*u  where q = v / u
        have hqu : v / u * u ≤ v := Nat.div_mul_le_self v u
        have hcast : ((v % u : Nat) : Int) = (v : Int) - (v / u : Nat) * (u : Int) := by
          rw [← sub_div_mul_eq_mod]
          push_cast [hqu]
          omega
        rw [hcast]
        have step : (a - (v / u : Nat) * c) * (x : Int)
            = a * x - (v / u : Nat) * (c * x) := by ring
        rw [step]
        exact Int.ModEq.sub ha (Int.ModEq.mul_left _ hc)
      · exact hc
      · rw [← hg, Nat.gcd_rec u v]

/-- `inv_mod` is a modular inverse: for coprime `1 ≤ x < y` the result is
in `[0, y)` and multiplies with `x` to `1` mod `y`. -/
theorem inv_mod_spec (x y : Nat) (hx : 1 ≤ x) (hxy : x < y)
    (h : Nat.gcd x y = 1) :
    inv_mod x y < y ∧ (inv_mod x y * x) % y = 1 := by
  have hy : 2 ≤ y := by omega
  have hy0 : (0 : Int) < (y : Int) := by exact_mod_cast Nat.lt_of_lt_of_le Nat.zero_lt_two hy
  set g := inv_mod.go (x+1) x y 0 1 with hgdef
  have hginv : g * (x : Int) ≡ 1 [ZMOD (y : Int)] := by
    have := inv_mod_go_spec x y (x+1) x y 0 1 (by omega) (by omega)
      (by rw [one_mul])
      (by rw [zero_mul]; exact Int.modEq_iff_dvd.mpr ⟨1, by ring⟩)
      rfl
    rw [h] at this
    exact_mod_cast this
  set m := g.tmod (y : Int) with hm
  have hmub : m < (y : Int) := Int.tmod_lt_of_pos g hy0
  have hmlb : -(y : Int) < m := Int.neg_lt_tmod g hy0
  have hmeq : m ≡ g [ZMOD (y : Int)] := Int.tmod_modEq g (y : Int)
  -- the normalised value
  set w : Int := if m < 0 then (y : Int) + m else m with hw
  have hw0 : 0 ≤ w := by
    by_cases hneg : m < 0
    · simp only [hw, if_pos hneg]; omega
    · simp only [hw, if_neg hneg]; omega
  have hwlt : w < (y : Int) := by
    by_cases hneg : m < 0
    · simp only [hw, if_pos hneg]; omega
    · simp only [hw, if_neg hneg]; omega
  have hwmeq : w ≡ g [ZMOD (y : Int)] := by
    by_cases hneg : m < 0
    · simp only [hw, if_pos hneg]
      calc ((y : Int) + m) ≡ 0 + m [ZMOD (y : Int)] :=
            Int.ModEq.add (Int.modEq_iff_dvd.mpr ⟨-1, by ring⟩) Int.ModEq.rfl
        _ = m := by ring
        _ ≡ g [ZMOD (y : Int)] := hmeq
    · simp only [hw, if_neg hneg]; exact hmeq
  have hres : inv_mod x y = w.toNat := by
    simp only [inv_mod, hgdef, hw, hm]
  have hcast : ((inv_mod x y : Nat) : Int) = w := by
    rw [hres]; exact Int.toNat_of_nonneg hw0
  constructor
  · have : ((inv_mod x y : Nat) : Int) < (y : Int) := by rw [hcast]; exact hwlt
    exact_mod_cast this
  · have hmul : w * (x : Int) ≡ 1 [ZMOD (y : Int)] :=
      (Int.ModEq.mul_right _ hwmeq).trans hginv
    have hy2 : (2 : Int) ≤ (y : Int) := by exact_mod_cast hy
    have hfin : ((inv_mod x y * x : Nat) : Int) % (y : Int) = 1 := by
      push_cast
      rw [hcast]
      have := hmul
      unfold Int.ModEq at this
      rw [this]
      exact Int.emod_eq_of_lt (by omega) (by omega)
    have : ((inv_mod x y * x) % y : Nat) = ((1 : Nat)) := by
      have hc : (((inv_mod x y * x) % y : Nat) : Int) = ((1 : Nat) : Int) := by
        push_cast
        exact hfin
      exact_mod_cast hc
    exact this

end nine_digits_of_Pi

/-! ## Helper lemmas about binary exponentiation (`pow_mod`) -/

namespace nine_digits_of_Pi

theorem pow_mod_go_zero (m r aa : Nat) (fuel : Nat) (h : 1 ≤ fuel) :
    pow_mod.go m fuel r aa 0 = r := by
  cases fuel with
  | zero => omega
  | succ fuel => simp [pow_mod.go]

theorem pow_mod_go_pos (m : Nat) :
    ∀ fuel b, 0 < b → b < fuel → ∀ r aa,
    pow_mod.go m fuel r aa b = (r * aa ^ b) % m := by
  intro fuel
  induction fuel with
  | zero => intro b hb hlt; omega
  | succ fuel ih =>
    intro b hb hlt r aa
    simp only [pow_mod.go]
    by_cases hb2 : b / 2 = 0
    · have hb1 : b = 1 := by omega
      subst hb1
      norm_num [mul_mod]
    · rw [if_neg hb2]
      rw [ih (b / 2) (by omega) (by omega)]
      have key : ∀ r' : Nat, r' % m = (if b % 2 = 1 then r * aa else r) % m →
          (r' * (mul_mod aa aa m) ^ (b / 2)) % m = (r * aa ^ b) % m := by
        intro r' hr'
        have h1 : r' ≡ (if b % 2 = 1 then r * aa else r) [MOD m] := hr'
        have h2 : (mul_mod aa aa m) ^ (b / 2) ≡ (aa*aa) ^ (b / 2) [MOD m] :=
          (Nat.mod_modEq _ m).pow _
        have h3 := h1.mul h2
        have h4 : (if b % 2 = 1 then r * aa else r) * (aa*aa) ^ (b / 2) = r * aa ^ b := by
          have hsq : (aa*aa) ^ (b / 2) = aa ^ (2 * (b / 2)) := by
            rw [pow_mul, pow_two]
          by_cases hodd : b % 2 = 1
          · rw [if_pos hodd, hsq]
            have hb' : 2 * (b / 2) + 1 = b := by omega
            calc r * aa * aa ^ (2 * (b / 2)) = r * aa ^ (2 * (b / 2) + 1) := by
                  rw [pow_succ]; ring
              _ = r * aa ^ b := by rw [hb']
          · rw [if_neg hodd, hsq]
            have hb' : 2 * (b / 2) = b := by omega
            rw [hb']
        exact h3.trans (h4 ▸ Nat.ModEq.rfl)
      by_cases hodd : b % 2 = 1
      · rw [if_pos hodd]
        exact key _ (by rw [if_pos hodd]; simp [mul_mod])
      · rw [if_neg hodd]
        exact key _ (by rw [if_neg hodd])

/-- `pow_mod` agrees with `a^b % m` whenever `0 < b`. -/
theorem pow_mod_eq (a b m : Nat) (hb : 0 < b) :
    pow_mod a b m = a ^ b % m := by
  unfold pow_mod
  rw [pow_mod_go_pos m (b+1) b hb (by omega) 1 a, one_mul]

end nine_digits_of_Pi

/-! ## Helper lemmas about the prime iteration (`isqrt`, `not_prime`, `next_prime`) -/

namespace nine_digits_of_Pi

theorem isqrt_go_spec (n : Nat) :
    ∀ fuel s, s * s ≤ n → n < (s + fuel + 1) * (s + fuel + 1) →
    isqrt.go n fuel s * isqrt.go n fuel s ≤ n ∧
      n < (isqrt.go n fuel s + 1) * (isqrt.go n fuel s + 1) := by
  intro fuel
  induction fuel with
  | zero =>
    intro s hs hub
    rw [Nat.add_zero] at hub
    simpa [isqrt.go] using ⟨hs, hub⟩
  | succ fuel ih =>
    intro s hs hub
    simp only [isqrt.go]
    by_cases h : (s+1)*(s+1) ≤ n
    · rw [if_pos h]
      refine ih (s+1) h ?_
      have harg : s + 1 + fuel + 1 = s + (fuel + 1) + 1 := by omega
      rw [harg]
      exact hub
    · rw [if_neg h]
      exact ⟨hs, by omega⟩

/-- `isqrt` is the integer square root. -/
theorem isqrt_eq_sqrt (n : Nat) : isqrt n = Nat.sqrt n := by
  have h := isqrt_go_spec n n 0 (by omega) (by nlinarith)
  unfold isqrt
  have h1 : isqrt.go n n 0 ≤ Nat.sqrt n := Nat.le_sqrt.mpr h.1
  have h2 : Nat.sqrt n < isqrt.go n n 0 + 1 := Nat.sqrt_lt.mpr h.2
  omega

theorem not_prime_go_spec (n r : Nat) :
    ∀ fuel i, r + 2 ≤ i + 2 * fuel →
    (not_prime.go n r fuel i = true ↔
      ∃ j, i ≤ j ∧ j ≤ r ∧ 2 ∣ (j - i) ∧ n % j = 0) := by
  intro fuel
  induction fuel with
  | zero =>
    intro i hfuel
    simp only [not_prime.go]
    constructor
    · intro h; cases h
    · rintro ⟨j, hij, hjr, -, -⟩; omega
  | succ fuel ih =>
    intro i hfuel
    simp only [not_prime.go]
    by_cases hir : i ≤ r
    · rw [if_pos hir]
      by_cases hdvd : n % i = 0
      · rw [if_pos hdvd]
        simp only [true_iff]
        exact ⟨i, le_refl i, hir, by simp, hdvd⟩
      · rw [if_neg hdvd]
        rw [ih (i+2) (by omega)]
        constructor
        · rintro ⟨j, hij, hjr, hpar, hmod⟩
          exact ⟨j, by omega, hjr, by omega, hmod⟩
        · rintro ⟨j, hij, hjr, hpar, hmod⟩
          refine ⟨j, ?_, hjr, ?_, hmod⟩
          · -- j ≠ i (since n % i ≠ 0) and j ≢ i+1 (parity), so j ≥ i+2
            rcases Nat.eq_or_lt_of_le hij with heq | hlt
            · exact absurd (heq ▸ hmod) hdvd
            · rcases hpar with ⟨c, hc⟩
              omega
          · rcases hpar with ⟨c, hc⟩
            refine ⟨c - 1, ?_⟩
            rcases Nat.eq_or_lt_of_le hij with heq | hlt
            · exact absurd (heq ▸ hmod) hdvd
            · omega
    · rw [if_neg hir]
      constructor
      · intro h; cases h
      · rintro ⟨j, hij, hjr, -, -⟩; omega

/-- For odd `n ≥ 3`, `not_prime` decides compositeness. -/
theorem not_prime_iff (n : Nat) (h3 : 3 ≤ n) (hodd : n % 2 = 1) :
    (not_prime n = true ↔ ¬ n.Prime) := by
  have hsqrt : isqrt n = Nat.sqrt n := isqrt_eq_sqrt n
  have hsn : Nat.sqrt n < n := Nat.sqrt_lt_self (by omega)
  unfold not_prime
  rw [if_neg (by omega : ¬ n % 2 = 0)]
  rw [not_prime_go_spec n (isqrt n) n 3 (by omega)]
  constructor
  · rintro ⟨j, h3j, hjr, -, hmod⟩
    intro hp
    have hdvd : j ∣ n := Nat.dvd_of_mod_eq_zero hmod
    rcases hp.eq_one_or_self_of_dvd j hdvd with h1 | hn
    · omega
    · rw [hsqrt] at hjr; omega
  · intro hp
    have hmf : n.minFac.Prime := Nat.minFac_prime (by omega)
    have hdvd : n.minFac ∣ n := Nat.minFac_dvd n
    have hsq : n.minFac ^ 2 ≤ n := Nat.minFac_sq_le_self (by omega) hp
    have hodd' : n.minFac % 2 = 1 := by
      rcases hmf.eq_two_or_odd' with h2 | hodd'
      · exfalso
        rw [h2] at hdvd
        omega
      · rcases hodd' with ⟨c, hc⟩; omega
    have h3f : 3 ≤ n.minFac := by
      have := hmf.two_le
      omega
    refine ⟨n.minFac, h3f, ?_, ?_, Nat.mod_eq_zero_of_dvd hdvd⟩
    · rw [hsqrt]
      exact Nat.le_sqrt'.mpr hsq
    · refine ⟨(n.minFac - 3) / 2, ?_⟩
      omega

/-- For any `m ≥ 4`, `not_prime m = false` exactly when `m` is prime. -/
theorem not_prime_eq_false_iff (m : Nat) (h4 : 4 ≤ m) :
    (not_prime m = false ↔ m.Prime) := by
  by_cases hodd : m % 2 = 1
  · have := not_prime_iff m (by omega) hodd
    constructor
    · intro hf
      by_contra hnp
      have : not_prime m = true := this.mpr hnp
      rw [this] at hf; cases hf
    · intro hp
      cases hnp : not_prime m with
      | false => rfl
      | true => exact absurd (this.mp hnp) (by simpa using hp)
  · -- m even and ≥ 4: not_prime m = true, and m is not prime
    have hm2 : m % 2 = 0 := by omega
    unfold not_prime
    rw [if_pos hm2]
    simp only [Bool.true_eq_false, false_iff]
    intro hp
    rcases hp.eq_two_or_odd' with h2 | ⟨c, hc⟩ <;> omega

theorem next_prime_go_spec :
    ∀ fuel n, 3 ≤ n → (∃ p, n < p ∧ p ≤ n + fuel ∧ p.Prime) →
    (next_prime.go fuel n).Prime ∧ n < next_prime.go fuel n ∧
      (∀ q, q.Prime → n < q → next_prime.go fuel n ≤ q) := by
  intro fuel
  induction fuel with
  | zero =>
    rintro n _ ⟨p, hnp, hpn, -⟩
    omega
  | succ fuel ih =>
    rintro n h3 ⟨p, hnp, hpub, hp⟩
    simp only [next_prime.go]
    by_cases hnp1 : not_prime (n+1) = true
    · rw [if_pos hnp1]
      have hne : p ≠ n+1 := by
        intro he
        have : not_prime (n+1) = false :=
          (not_prime_eq_false_iff (n+1) (by omega)).mpr (he ▸ hp)
        rw [this] at hnp1; cases hnp1
      obtain ⟨h1, h2, h3'⟩ := ih (n+1) (by omega) ⟨p, by omega, by omega, hp⟩
      refine ⟨h1, by omega, fun q hq hnq => ?_⟩
      by_cases hqe : q = n+1
      · exfalso
        have : not_prime (n+1) = false :=
          (not_prime_eq_false_iff (n+1) (by omega)).mpr (hqe ▸ hq)
        rw [this] at hnp1; cases hnp1
      · exact h3' q hq (by omega)
    · rw [if_neg hnp1]
      have hnf : not_prime (n+1) = false := by
        cases h : not_prime (n+1) with
        | false => rfl
        | true => exact absurd h hnp1
      have hprime : (n+1).Prime := (not_prime_eq_false_iff (n+1) (by omega)).mp hnf
      exact ⟨hprime, by omega, fun q _ hq => by omega⟩

/-- `next_prime n` is the least prime greater than `n`, for `n ≥ 3`. -/
theorem next_prime_spec (n : Nat) (h3 : 3 ≤ n) :
    (next_prime n).Prime ∧ n < next_prime n ∧
      (∀ q, q.Prime → n < q → next_prime n ≤ q) := by
  unfold next_prime
  apply next_prime_go_spec (n+2) n h3
  obtain ⟨p, hp, hnp, hub⟩ := Nat.bertrand n (by omega)
  exact ⟨p, hnp, by omega, hp⟩

/-! ## Division-safety of `at`: the invariant development for the `ok` flag -/

/-- The strip loop leaves a value not divisible by `a`, provided it
starts on a positive multiple of `a` and has fuel at least `t`. -/
theorem strip_up_mod_ne (a : Nat) (ha : 2 ≤ a) :
    ∀ fuel t v, 1 ≤ t → a ∣ t → t ≤ fuel →
    (strip_up a fuel t v).1 % a ≠ 0 := by
  intro fuel
  induction fuel with
  | zero => intro t v ht _ hle; omega
  | succ fuel ih =>
    intro t v ht hdvd hle
    have hta : a ≤ t := Nat.le_of_dvd (by omega) hdvd
    have ht' : 1 ≤ t / a := (Nat.one_le_div_iff (by omega)).mpr hta
    have htlt : t / a < t := Nat.div_lt_self (by omega) (by omega)
    simp only [strip_up]
    by_cases h : (t / a) % a = 0
    · rw [if_pos h]
      exact ih (t / a) (v + 1) ht' (Nat.dvd_of_mod_eq_zero h) (by omega)
    · rw [if_neg h]
      exact h

theorem ilog_go_le (b m : Nat) : ∀ fuel e, e ≤ ilog.go b m fuel e := by
  intro fuel
  induction fuel with
  | zero => intro e; simp [ilog.go]
  | succ fuel ih =>
    intro e
    simp only [ilog.go]
    by_cases h : b^(e+1) ≤ m
    · rw [if_pos h]
      exact le_trans (by omega) (ih (e+1))
    · rw [if_neg h]

/-- With any positive fuel, `ilog b m fuel ≥ 1` as soon as `b ≤ m`. -/
theorem one_le_ilog (b m fuel : Nat) (h : b ≤ m) (hf : 1 ≤ fuel) :
    1 ≤ ilog b m fuel := by
  cases fuel with
  | zero => omega
  | succ fuel =>
    unfold ilog
    simp only [ilog.go]
    have h1 : b ^ (0+1) ≤ m := by simpa using h
    rw [if_pos h1]
    exact ilog_go_le b m fuel 1

end nine_digits_of_Pi

namespace nine_digits_of_Pi

theorem kq2_step_mod (a x k : Nat) (hx : a ≤ x) (hmod : x % a = (2*k-1) % a) :
    (x - a + 2) % a = ((2*k-1)+2) % a := by
  have h1 : (x - a + 2) + a = x + 2 := by omega
  have h2 : (x - a + 2) % a = ((x - a + 2) + a) % a := by rw [Nat.add_mod_right]
  rw [h2, h1]
  exact Nat.ModEq.add_right 2 hmod

theorem at_body_inv (a av vmax : Nat) (ha : a.Prime) (ha3 : 3 ≤ a)
    (hvmax : 1 ≤ vmax) (hav : av = a ^ vmax) (k : Nat) (st : LoopState)
    (hk : 1 ≤ k) (hok : st.ok = true) (hden : st.den % a ≠ 0)
    (hkq2 : st.kq2 % a = (2*k-1) % a) (hkq2l : 1 ≤ st.kq2)
    (hkq2u : st.kq2 ≤ a+1) :
    (at_body a av vmax k st).ok = true ∧
    (at_body a av vmax k st).den % a ≠ 0 ∧
    (at_body a av vmax k st).kq2 % a = (2*(k+1)-1) % a ∧
    1 ≤ (at_body a av vmax k st).kq2 ∧
    (at_body a av vmax k st).kq2 ≤ a+1 := by
  have hadvdav : a ∣ av := hav ▸ dvd_pow_self a (by omega : vmax ≠ 0)
  have main : ∀ t2 : Nat, t2 % a ≠ 0 →
      mul_mod st.den t2 av % a ≠ 0 ∧ (mul_mod st.den t2 av != 0) = true := by
    intro t2 ht2
    have h1 : mul_mod st.den t2 av % a = (st.den * t2) % a := by
      unfold mul_mod
      exact Nat.mod_mod_of_dvd _ hadvdav
    have h2 : (st.den * t2) % a ≠ 0 := by
      intro h0
      rcases (ha.dvd_mul).mp (Nat.dvd_of_mod_eq_zero h0) with h | h
      · exact hden (Nat.mod_eq_zero_of_dvd h)
      · exact ht2 (Nat.mod_eq_zero_of_dvd h)
    have hne : mul_mod st.den t2 av ≠ 0 := by
      intro h0
      rw [h0] at h1
      simp at h1
      exact h2 h1.symm
    exact ⟨h1 ▸ h2, by simpa using hne⟩
  have e1 : 2*(k+1)-1 = (2*k-1)+2 := by omega
  by_cases hb1 : a ≤ st.kq2
  · by_cases hb2 : st.kq2 = a
    · -- strip branch: a ∣ 2k-1, t2 is the stripped value
      have hdvd21 : a ∣ (2*k-1) := by
        apply Nat.dvd_of_mod_eq_zero
        rw [← hkq2, hb2, Nat.mod_self]
      have ht2 : ∀ w : Int, (strip_up a (2*k-1) (2*k-1) w).1 % a ≠ 0 :=
        fun w => strip_up_mod_ne a (by omega) (2*k-1) (2*k-1) w (by omega) hdvd21 (le_refl _)
      have okD : ∀ w : Int,
          ((mul_mod st.den (strip_up a (2*k-1) (2*k-1) w).1 av) != 0) = true :=
        fun w => (main _ (ht2 w)).2
      by_cases hb0 : a ≤ st.kq <;>
        first
          | simp only [at_body, if_pos hb0, if_pos hb1, if_pos hb2,
              apply_ite LoopState.ok, apply_ite LoopState.den, apply_ite LoopState.kq2,
              hok, okD, Bool.true_and, ite_self, true_and, and_true]
          | simp only [at_body, if_neg hb0, if_pos hb1, if_pos hb2,
              apply_ite LoopState.ok, apply_ite LoopState.den, apply_ite LoopState.kq2,
              hok, okD, Bool.true_and, ite_self, true_and, and_true]
      all_goals
        refine ⟨?_, ?_, ?_, ?_⟩
        · exact (main _ (ht2 _)).1
        · rw [e1]; exact kq2_step_mod a st.kq2 k hb1 hkq2
        · omega
        · omega
    · -- st.kq2 = a + 1
      have ht2 : (2*k-1) % a ≠ 0 := by
        rw [← hkq2]
        have hq2 : st.kq2 = a + 1 := by omega
        rw [hq2, Nat.add_mod_left, Nat.mod_eq_of_lt (by omega : 1 < a)]
        omega
      have okD : ((mul_mod st.den (2*k-1) av) != 0) = true := (main _ ht2).2
      by_cases hb0 : a ≤ st.kq <;>
        first
          | simp only [at_body, if_pos hb0, if_pos hb1, if_neg hb2,
              apply_ite LoopState.ok, apply_ite LoopState.den, apply_ite LoopState.kq2,
              hok, okD, Bool.true_and, ite_self, true_and, and_true]
          | simp only [at_body, if_neg hb0, if_pos hb1, if_neg hb2,
              apply_ite LoopState.ok, apply_ite LoopState.den, apply_ite LoopState.kq2,
              hok, okD, Bool.true_and, ite_self, true_and, and_true]
      all_goals
        refine ⟨?_, ?_, ?_, ?_⟩
        · exact (main _ ht2).1
        · rw [e1]; exact kq2_step_mod a st.kq2 k hb1 hkq2
        · omega
        · omega
  · -- st.kq2 < a
    have ht2 : (2*k-1) % a ≠ 0 := by
      rw [← hkq2, Nat.mod_eq_of_lt (by omega : st.kq2 < a)]
      omega
    have okD : ((mul_mod st.den (2*k-1) av) != 0) = true := (main _ ht2).2
    by_cases hb0 : a ≤ st.kq <;>
      first
        | simp only [at_body, if_pos hb0, if_neg hb1,
            apply_ite LoopState.ok, apply_ite LoopState.den, apply_ite LoopState.kq2,
            hok, okD, Bool.true_and, ite_self, true_and, and_true]
        | simp only [at_body, if_neg hb0, if_neg hb1,
            apply_ite LoopState.ok, apply_ite LoopState.den, apply_ite LoopState.kq2,
            hok, okD, Bool.true_and, ite_self, true_and, and_true]
    all_goals
      refine ⟨?_, ?_, ?_, ?_⟩
      · exact (main _ ht2).1
      · rw [e1]; exact Nat.ModEq.add_right 2 hkq2
      · omega
      · omega

end nine_digits_of_Pi

namespace nine_digits_of_Pi

theorem at_inner_ok (a av vmax : Nat) (ha : a.Prime) (ha3 : 3 ≤ a)
    (hvmax : 1 ≤ vmax) (hav : av = a ^ vmax) :
    ∀ rem k st, 1 ≤ k → st.ok = true → st.den % a ≠ 0 →
    st.kq2 % a = (2*k-1) % a → 1 ≤ st.kq2 → st.kq2 ≤ a+1 →
    (at_inner a av vmax rem k st).ok = true := by
  intro rem
  induction rem with
  | zero =>
    intro k st _ hok _ _ _ _
    simpa [at_inner] using hok
  | succ rem ih =>
    intro k st hk hok hden hkq2 hl hu
    simp only [at_inner]
    obtain ⟨o1, o2, o3, o4, o5⟩ :=
      at_body_inv a av vmax ha ha3 hvmax hav k st hk hok hden hkq2 hl hu
    exact ih (k+1) _ (by omega) o1 o2 o3 o4 o5

theorem at_outer_ok (n N : Nat) :
    ∀ fuel a st, a.Prime → 3 ≤ a → st.ok = true →
    (at_outer n N fuel a st).ok = true := by
  intro fuel
  induction fuel with
  | zero =>
    intro a st _ _ hok
    simpa [at_outer] using hok
  | succ fuel ih =>
    intro a st ha ha3 hok
    simp only [at_outer]
    by_cases hle : a ≤ 2*N
    · rw [if_pos hle]
      have hvmax : 1 ≤ ilog a (2*N) (2*N) :=
        one_le_ilog a (2*N) (2*N) hle (by omega)
      obtain ⟨hp', hgt, -⟩ := next_prime_spec a ha3
      apply ih (next_prime a) _ hp' (by omega)
      -- the new state's ok is the inner loop's ok
      have hden1 : (1 : Nat) % a ≠ 0 := by
        rw [Nat.mod_eq_of_lt (by omega : (1:Nat) < a)]
        omega
      have hkq21 : (1 : Nat) % a = (2*1-1) % a := by norm_num
      exact at_inner_ok a (a ^ ilog a (2*N) (2*N)) (ilog a (2*N) (2*N)) ha ha3
        hvmax rfl N 1 ⟨0, 1, 1, 0, 1, 1, st.ok⟩ (le_refl 1) hok
        hden1 hkq21 (le_refl 1) (by omega : (1:Nat) ≤ a + 1)
    · rw [if_neg hle]
      exact hok

/-- The division-safety flag of a full run of `at` is always `true`:
no call of `inv_mod` ever receives a zero first argument. -/
theorem at_run_ok (n : Nat) : (at_run n).ok = true := by
  unfold at_run
  exact at_outer_ok n _ _ 3 ⟨0, 1, true⟩ (by norm_num) (by omega) rfl

end nine_digits_of_Pi

/-! ## Driver loop lemmas (`calc_pi`) -/

/-- The calls list only grows: the loop appends to its accumulator. -/
theorem calc_pi_go_calls_mono (d : Nat) (p : Nat → Bool) :
    ∀ fuel i pi calls, ∃ suffix, (calc_pi.go d p fuel i pi calls).2 = calls ++ suffix := by
  intro fuel
  induction fuel with
  | zero => intro i pi calls; exact ⟨[], by simp [calc_pi.go]⟩
  | succ fuel ih =>
    intro i pi calls
    simp only [calc_pi.go]
    by_cases hi : i < d
    · rw [if_pos hi]
      by_cases hp : p (i + min (d - i) 9) = true
      · rw [if_pos hp]
        obtain ⟨suffix, hs⟩ := ih (i+9) (pi ++ (to_string (nine_digits_of_Pi.at' (i+1))).take (min (d - i) 9)) (calls ++ [i + min (d - i) 9])
        exact ⟨[i + min (d - i) 9] ++ suffix, by rw [hs, List.append_assoc]⟩
      · rw [if_neg hp]
        exact ⟨[i + min (d - i) 9], rfl⟩
    · rw [if_neg hi]
      exact ⟨[], by simp⟩

/-- Strict monotonicity of the recorded progress values, plus the bound
that every recorded value is at most `max i d`-ish: we track that every
element of the accumulated list is `≤ i`, every new element exceeds `i`. -/
theorem calc_pi_go_chain (d : Nat) (p : Nat → Bool) :
    ∀ fuel i pi calls, (∀ x ∈ calls, x ≤ i) → List.Chain' (· < ·) calls →
    List.Chain' (· < ·) (calc_pi.go d p fuel i pi calls).2 := by
  intro fuel
  induction fuel with
  | zero => intro i pi calls _ hch; simpa [calc_pi.go] using hch
  | succ fuel ih =>
    intro i pi calls hle hch
    simp only [calc_pi.go]
    by_cases hi : i < d
    · rw [if_pos hi]
      have hcount : 1 ≤ min (d - i) 9 := by omega
      have hch' : List.Chain' (· < ·) (calls ++ [i + min (d - i) 9]) := by
        rw [List.chain'_append]
        refine ⟨hch, List.chain'_singleton _, ?_⟩
        intro x hx y hy
        simp only [List.head?_cons, Option.mem_def, Option.some.injEq] at hy
        subst hy
        have := hle x (List.mem_of_mem_getLast? hx)
        omega
      by_cases hp : p (i + min (d - i) 9) = true
      · rw [if_pos hp]
        apply ih (i+9) _ _ _ hch'
        intro x hx
        rcases List.mem_append.mp hx with h | h
        · have := hle x h; omega
        · simp only [List.mem_singleton] at h; omega
      · rw [if_neg hp]
        exact hch'
    · rw [if_neg hi]
      exact hch

/-- If the loop finishes uncancelled (non-empty result), the last value
passed to the callback is `d`. -/
theorem calc_pi_go_last (d : Nat) (p : Nat → Bool) :
    ∀ fuel i pi calls, i < d → d ≤ i + 9 * fuel →
    (calc_pi.go d p fuel i pi calls).1 ≠ [] →
    (calc_pi.go d p fuel i pi calls).2.getLast? = some d := by
  intro fuel
  induction fuel with
  | zero => intro i pi calls hi hfuel _; omega
  | succ fuel ih =>
    intro i pi calls hi hfuel hres
    simp only [calc_pi.go] at hres ⊢
    rw [if_pos hi] at hres ⊢
    by_cases hp : p (i + min (d - i) 9) = true
    · rw [if_pos hp] at hres ⊢
      by_cases hi9 : i + 9 < d
      · exact ih (i+9) _ _ hi9 (by omega) hres
      · -- next iteration exits the loop (or fuel runs out): result is the pair itself
        have hmin : min (d - i) 9 = d - i := by omega
        have hstop : ∀ pi' calls', (calc_pi.go d p fuel (i+9) pi' calls') = (pi', calls') := by
          intro pi' calls'
          cases fuel with
          | zero => simp [calc_pi.go]
          | succ fuel => simp only [calc_pi.go]; rw [if_neg (by omega)]
        rw [hstop]
        rw [hmin, List.getLast?_concat]
        congr 1
        omega
    · rw [if_neg hp] at hres ⊢
      exact absurd rfl hres

/-- Cancellation: once some recorded callback value returns `false`, the
result is empty; and all values before the last one returned `true`. -/
theorem calc_pi_go_cancel (d : Nat) (p : Nat → Bool) :
    ∀ fuel i pi calls, (∀ x ∈ calls, p x = true) →
    ((∃ v ∈ (calc_pi.go d p fuel i pi calls).2, p v = false) →
      (calc_pi.go d p fuel i pi calls).1 = []) ∧
    (∀ v ∈ (calc_pi.go d p fuel i pi calls).2.dropLast, p v = true) := by
  intro fuel
  induction fuel with
  | zero =>
    intro i pi calls hall
    simp only [calc_pi.go]
    constructor
    · rintro ⟨v, hv, hfalse⟩
      rw [hall v hv] at hfalse; cases hfalse
    · intro v hv
      exact hall v (List.dropLast_subset _ hv)
  | succ fuel ih =>
    intro i pi calls hall
    simp only [calc_pi.go]
    by_cases hi : i < d
    · rw [if_pos hi]
      by_cases hp : p (i + min (d - i) 9) = true
      · rw [if_pos hp]
        apply ih
        intro x hx
        rcases List.mem_append.mp hx with h | h
        · exact hall x h
        · simp only [List.mem_singleton] at h; subst h; exact hp
      · rw [if_neg hp]
        constructor
        · intro _; rfl
        · intro v hv
          rw [List.dropLast_concat] at hv
          exact hall v hv
    · rw [if_neg hi]
      constructor
      · rintro ⟨v, hv, hfalse⟩
        rw [hall v hv] at hfalse; cases hfalse
      · intro v hv
        exact hall v (List.dropLast_subset _ hv)

/-- With a callback that always answers `true`, the ASYNC and non-ASYNC
loops coincide. -/
theorem calc_pi_go_sync_eq (d : Nat) (p : Nat → Bool) (hp : ∀ v, p v = true) :
    ∀ fuel i pi calls,
    calc_pi.go d p fuel i pi calls = calc_pi_sync.go d p fuel i pi calls := by
  intro fuel
  induction fuel with
  | zero => intro i pi calls; simp [calc_pi.go, calc_pi_sync.go]
  | succ fuel ih =>
    intro i pi calls
    simp only [calc_pi.go, calc_pi_sync.go]
    by_cases hi : i < d
    · rw [if_pos hi, if_pos hi, hp (i + min (d - i) 9), if_pos rfl]
      exact ih (i+9) _ _
    · rw [if_neg hi, if_neg hi]

/-! ## The claims -/

open nine_digits_of_Pi in
/-- C5: For every pair of integers x, y with 1 ≤ x < y and gcd(x, y) = 1,
`inv_mod x y` returns a value in `[0, y)` satisfying `(r * x) mod y = 1`. -/
theorem claim_C5 : ∀ x y : Nat, 1 ≤ x → x < y → Nat.gcd x y = 1 →
    inv_mod x y < y ∧ (inv_mod x y * x) % y = 1 :=
  fun x y hx hxy h => inv_mod_spec x y hx hxy h

open nine_digits_of_Pi in
/-- Witness for C5 at (x, y) = (3, 10). -/
theorem claim_C5_witness :
    (1 ≤ 3 ∧ 3 < 10 ∧ Nat.gcd 3 10 = 1) ∧
    (inv_mod 3 10 < 10 ∧ (inv_mod 3 10 * 3) % 10 = 1) :=
  ⟨by decide, claim_C5 3 10 (by decide) (by decide) (by decide)⟩

open nine_digits_of_Pi in
/-- C6 (as stated) is false: at `a = 0, b = 0, m = 1` the function returns
`1`, but `0^0 % 1 = 0`, which also violates the range `[0, m)`. -/
theorem claim_C6_counterexample :
    ¬ (pow_mod 0 0 1 = 0 ^ 0 % 1 ∧ pow_mod 0 0 1 < 1) := by decide

open nine_digits_of_Pi in
/-- C6 (amended): for every `a b m` with `b ≥ 0`, `m > 0`, `0 ≤ a < m`,
and not both `b = 0` and `m = 1`, `pow_mod a b m` equals the reference
value `a^b mod m` (repeated multiplication) and lies in `[0, m)`. -/
theorem claim_C6 : ∀ a b m : Nat, 0 < m → a < m → (b ≠ 0 ∨ 1 < m) →
    pow_mod a b m = a ^ b % m ∧ pow_mod a b m < m := by
  intro a b m hm _ hbm
  by_cases hb : b = 0
  · subst hb
    have hm1 : 1 < m := by
      rcases hbm with h | h
      · exact absurd rfl h
      · exact h
    have h0 : pow_mod a 0 m = 1 := pow_mod_go_zero m 1 a 1 (by omega)
    rw [h0, pow_zero, Nat.mod_eq_of_lt hm1]
    exact ⟨rfl, hm1⟩
  · rw [pow_mod_eq a b m (by omega)]
    exact ⟨rfl, Nat.mod_lt _ hm⟩

open nine_digits_of_Pi in
/-- Witness for C6 at (a, b, m) = (2, 5, 7). -/
theorem claim_C6_witness :
    (0 < 7 ∧ 2 < 7 ∧ ((5 : Nat) ≠ 0 ∨ 1 < 7)) ∧
    (pow_mod 2 5 7 = 2 ^ 5 % 7 ∧ pow_mod 2 5 7 < 7) :=
  ⟨by decide, claim_C6 2 5 7 (by decide) (by decide) (Or.inl (by decide))⟩

open nine_digits_of_Pi in
/-- C9: for every `n ≥ 3`, `next_prime n` terminates and returns the
smallest odd prime strictly greater than `n`; and for every odd `n ≥ 3`,
`not_prime n` returns `true` iff `n` is composite (not prime). -/
theorem claim_C9 : ∀ n : Nat, 3 ≤ n →
    ((next_prime n).Prime ∧ next_prime n % 2 = 1 ∧ n < next_prime n ∧
      (∀ q, q.Prime → q % 2 = 1 → n < q → next_prime n ≤ q)) ∧
    (n % 2 = 1 → (not_prime n = true ↔ ¬ n.Prime)) := by
  intro n h3
  obtain ⟨hp, hgt, hmin⟩ := next_prime_spec n h3
  refine ⟨⟨hp, ?_, hgt, fun q hq _ hnq => hmin q hq hnq⟩, fun hodd => not_prime_iff n h3 hodd⟩
  rcases hp.eq_two_or_odd' with h2 | ⟨c, hc⟩ <;> omega

open nine_digits_of_Pi in
/-- Witness for C9 at n = 9 (odd, composite; next prime is 11). -/
theorem claim_C9_witness :
    (3 ≤ 9) ∧
    (((next_prime 9).Prime ∧ next_prime 9 % 2 = 1 ∧ 9 < next_prime 9 ∧
      (∀ q, q.Prime → q % 2 = 1 → 9 < q → next_prime 9 ≤ q)) ∧
    (9 % 2 = 1 → (not_prime 9 = true ↔ ¬ Nat.Prime 9))) :=
  ⟨by decide, claim_C9 9 (by decide)⟩

open nine_digits_of_Pi in
/-- C4: evaluating `at` never divides by zero.  Mod-1 arithmetic always
contributes 0 (`mul_mod _ _ 1 = 0`), and for every `n ≥ 1` the `ok` flag
of the full run — which records that `inv_mod` was never entered with a
zero first argument `u` at its division `q = v / u` — is `true`. -/
theorem claim_C4 : (∀ s t : Nat, mul_mod s t 1 = 0) ∧
    (∀ n : Nat, 1 ≤ n → (at_run n).ok = true) :=
  ⟨fun s t => Nat.mod_one _, fun n _ => at_run_ok n⟩

open nine_digits_of_Pi in
/-- Witness for C4 at n = 1. -/
theorem claim_C4_witness : (1 ≤ 1) ∧ (at_run 1).ok = true :=
  ⟨by decide, claim_C4.2 1 (by decide)⟩

/-- C3: if the progress callback returns false on some invocation,
`calc_pi` returns the empty (cancelled) result, discarding the partial
string, and no further blocks are computed (every recorded callback value
except the last returned true); if the callback returns false on its
first invocation — whose value is `min d 9` — it is invoked exactly once. -/
theorem claim_C3 : ∀ (d : Nat) (p : Nat → Bool), 1 ≤ d →
    ((∃ v ∈ calc_pi_calls d p, p v = false) →
      calc_pi d p = [] ∧ ∀ v ∈ (calc_pi_calls d p).dropLast, p v = true) ∧
    (p (min d 9) = false → calc_pi_run d p = ([], [min d 9])) := by
  intro d p hd
  constructor
  · intro hex
    have h := calc_pi_go_cancel d p (d+1) 0 ['3', '.'] [] (by simp)
    exact ⟨h.1 hex, h.2⟩
  · intro hfalse
    show calc_pi.go d p (d+1) 0 ['3', '.'] [] = ([], [min d 9])
    simp only [calc_pi.go]
    rw [if_pos (by omega : 0 < d)]
    have hmin : 0 + min (d - 0) 9 = min d 9 := by omega
    rw [hmin, hfalse]
    simp

/-- Witness for C3 at d = 1 with the always-false callback. -/
theorem claim_C3_witness :
    (1 ≤ 1) ∧
    (((∃ v ∈ calc_pi_calls 1 (fun _ => false), (fun _ => false : Nat → Bool) v = false) →
      calc_pi 1 (fun _ => false) = [] ∧
      ∀ v ∈ (calc_pi_calls 1 (fun _ => false)).dropLast, (fun _ => false : Nat → Bool) v = true) ∧
    ((fun _ => false : Nat → Bool) (min 1 9) = false →
      calc_pi_run 1 (fun _ => false) = ([], [min 1 9]))) :=
  ⟨by decide, claim_C3 1 (fun _ => false) (by decide)⟩

/-- C7: for every d ≥ 1 and every progress callback, the sequence of
values passed to the callback is strictly increasing, and if the
computation runs to completion (non-empty result), the last value passed
equals d. -/
theorem claim_C7 : ∀ (d : Nat) (p : Nat → Bool), 1 ≤ d →
    List.Chain' (· < ·) (calc_pi_calls d p) ∧
    (calc_pi d p ≠ [] → (calc_pi_calls d p).getLast? = some d) := by
  intro d p hd
  constructor
  · exact calc_pi_go_chain d p (d+1) 0 ['3', '.'] [] (by simp) (by simp)
  · intro hne
    exact calc_pi_go_last d p (d+1) 0 ['3', '.'] [] (by omega) (by omega) hne

/-- Witness for C7 at d = 5 with the always-true callback. -/
theorem claim_C7_witness :
    (1 ≤ 5) ∧
    (List.Chain' (· < ·) (calc_pi_calls 5 (fun _ => true)) ∧
    (calc_pi 5 (fun _ => true) ≠ [] →
      (calc_pi_calls 5 (fun _ => true)).getLast? = some 5)) :=
  ⟨by decide, claim_C7 5 (fun _ => true) (by decide)⟩

/-- C8: with an always-continue callback, each d in 1..9 produces exactly
one progress callback with value d, and d = 10 produces exactly two, with
values 9 then 10. -/
theorem claim_C8 :
    (∀ d, 1 ≤ d → d ≤ 9 → calc_pi_calls d (fun _ => true) = [d]) ∧
    calc_pi_calls 10 (fun _ => true) = [9, 10] := by
  constructor
  · intro d h1 h9
    interval_cases d <;> decide
  · decide

/-- Witness for C8 at d = 5. -/
theorem claim_C8_witness :
    (1 ≤ 5 ∧ 5 ≤ 9) ∧ calc_pi_calls 5 (fun _ => true) = [5] :=
  ⟨by decide, claim_C8.1 5 (by decide) (by decide)⟩

/-- C10: with a callback that always returns true, the ASYNC and
non-ASYNC variants of `calc_pi` return identical strings and pass
identical value sequences to the callback. -/
theorem claim_C10 : ∀ (d : Nat) (p : Nat → Bool), (∀ v, p v = true) →
    calc_pi d p = calc_pi_sync d p ∧
    calc_pi_run d p = calc_pi_sync_run d p := by
  intro d p hp
  have h := calc_pi_go_sync_eq d p hp (d+1) 0 ['3', '.'] []
  exact ⟨congrArg Prod.fst h, h⟩

/-- Witness for C10 at d = 0. -/
theorem claim_C10_witness :
    (∀ v : Nat, (fun _ => true : Nat → Bool) v = true) ∧
    (calc_pi 0 (fun _ => true) = calc_pi_sync 0 (fun _ => true) ∧
    calc_pi_run 0 (fun _ => true) = calc_pi_sync_run 0 (fun _ => true)) :=
  ⟨fun _ => rfl, claim_C10 0 (fun _ => true) (fun _ => rfl)⟩

set_option maxRecDepth 1000000 in
open nine_digits_of_Pi in
/-- C2: the digit extractor produces the known decimal expansion of π:
`at 1 = 141592653` and `at 10 = 589793238` (the nine digits starting at
1-based decimal positions 1 and 10). -/
theorem claim_C2 : at' 1 = 141592653 ∧ at' 10 = 589793238 :=
  ⟨by decide, by decide⟩
